import Mathlib

/-!
Verification of the disk I/O scheduling simulator.

This file shallowly embeds the scheduling engine of `src/disksimulation.py`
(class `Disk`: `fcfs_schedule`, `sstf_schedule`, `scan_schedule`,
`c_scan_schedule`) and the alternative implementation in
`src/workload_starvation_demo.py`, and proves the spec's testable
properties about them.

Conventions of the embedding:
- Python integers are modelled as `Int`; cylinder lists as `List Int`.
- The Python `while requests:` loops are modelled as fuel-indexed recursive
  functions returning `Option`; `none` means the fuel was exhausted.  The
  public wrappers supply fuel `2 * requests.length + 2`, and termination
  theorems below show this suffices on valid inputs.
- `float` average seek time (`total / len` in Python) is modelled as `Rat`.
- Each run additionally records two ghost fields that the Python code does
  not return but that the spec talks about: `serviced` (the sequence with
  the synthetic boundary/wrap visits removed, i.e. exactly the entries
  appended by branches that also remove an element from the working queue)
  and `wraps` (the number of C-SCAN wrap jumps taken).
-/

/-- Final head position after servicing the entries of a list in order,
starting from head `h`: Python's repeated `current_head = request`. -/
def lastPos (h : Int) : List Int → Int
  | [] => h
  | x :: xs => lastPos x xs

/-- Per-step movements obtained by re-walking a service list from head `h`:
each step costs `abs(current_head - request)` and moves the head there. -/
def walkMoves (h : Int) : List Int → List Int
  | [] => []
  | x :: xs => abs (h - x) :: walkMoves x xs

/-- Python's `min` on a list of ints (`None` on the empty list; the first
occurrence of the minimum is returned, though ties are equal values). -/
def pyMin : List Int → Option Int
  | [] => none
  | x :: xs =>
    match pyMin xs with
    | none => some x
    | some y => some (if y < x then y else x)

/-- Python's `max` on a list of ints. -/
def pyMax : List Int → Option Int
  | [] => none
  | x :: xs =>
    match pyMax xs with
    | none => some x
    | some y => some (if x < y then y else x)

/-- Python's `min(requests, key=lambda x: abs(x - current_head))`: the first
element minimizing the distance to `head` (earlier elements win ties). -/
def pyArgmin (head : Int) : List Int → Option Int
  | [] => none
  | x :: xs =>
    match pyArgmin head xs with
    | none => some x
    | some y => some (if abs (y - head) < abs (x - head) then y else x)

/-- Accumulated state of one scheduling run: `total` movement, serviced
`seq`uence (including synthetic boundary visits), per-step `movs`,
ghost `serviced` (sequence without synthetic visits), ghost `wraps`
(C-SCAN wrap-jump count), and `final` head position. -/
structure RunAcc where
  total : Int
  seq : List Int
  movs : List Int
  serviced : List Int
  wraps : Nat
  final : Int
deriving DecidableEq

/-- Main loop of `Disk.fcfs_schedule` (`disksimulation.py` lines 62-70):
service requests in input order. -/
def fcfsGo (head : Int) : List Int → RunAcc
  | [] => ⟨0, [], [], [], 0, head⟩
  | r :: rs =>
    let acc := fcfsGo r rs
    ⟨abs (head - r) + acc.total, r :: acc.seq, abs (head - r) :: acc.movs,
      r :: acc.serviced, acc.wraps, acc.final⟩

/-- Main loop of `Disk.sstf_schedule` (`disksimulation.py` lines 110-124):
repeatedly service the closest remaining request and remove one
occurrence of it (`requests.remove(closest_request)`). -/
def sstfGo : Nat → Int → List Int → Option RunAcc
  | _, head, [] => some ⟨0, [], [], [], 0, head⟩
  | 0, _, _ :: _ => none
  | fuel + 1, head, x :: xs =>
    match pyArgmin head (x :: xs) with
    | none => none
    | some c =>
      (sstfGo fuel c ((x :: xs).erase c)).map fun acc =>
        ⟨abs (head - c) + acc.total, c :: acc.seq, abs (head - c) :: acc.movs,
          c :: acc.serviced, acc.wraps, acc.final⟩

/-- Main loop of `Disk.scan_schedule` (`disksimulation.py` lines 169-227).
Direction is the raw Python string; the code only ever tests
`current_direction == 'right'`, so every other token behaves as `'left'`.
When no request lies on the current side, a synthetic step to the boundary
(`total_cylinders - 1` or `0`) is emitted and the direction flips. -/
def scanGo : Nat → Int → String → Int → List Int → Option RunAcc
  | _, _, _, head, [] => some ⟨0, [], [], [], 0, head⟩
  | 0, _, _, _, _ :: _ => none
  | fuel + 1, T, dir, head, x :: xs =>
    if dir = "right" then
      match pyMin ((x :: xs).filter (fun r => head ≤ r)) with
      | some nr =>
        (scanGo fuel T dir nr ((x :: xs).erase nr)).map fun acc =>
          ⟨abs (head - nr) + acc.total, nr :: acc.seq,
            abs (head - nr) :: acc.movs, nr :: acc.serviced, acc.wraps, acc.final⟩
      | none =>
        (scanGo fuel T "left" (T - 1) (x :: xs)).map fun acc =>
          ⟨abs (head - (T - 1)) + acc.total, (T - 1) :: acc.seq,
            abs (head - (T - 1)) :: acc.movs, acc.serviced, acc.wraps, acc.final⟩
    else
      match pyMax ((x :: xs).filter (fun r => r ≤ head)) with
      | some nr =>
        (scanGo fuel T dir nr ((x :: xs).erase nr)).map fun acc =>
          ⟨abs (head - nr) + acc.total, nr :: acc.seq,
            abs (head - nr) :: acc.movs, nr :: acc.serviced, acc.wraps, acc.final⟩
      | none =>
        (scanGo fuel T "right" 0 (x :: xs)).map fun acc =>
          ⟨abs (head - 0) + acc.total, 0 :: acc.seq,
            abs (head - 0) :: acc.movs, acc.serviced, acc.wraps, acc.final⟩

/-- Main loop of `Disk.c_scan_schedule` (`disksimulation.py` lines 273-347).
Like SCAN, but when no request lies on the current side the head visits the
boundary (appended to `sequence`/`movements`) and then jumps to the opposite
end; the jump cost `total_cylinders - 1` is added to `total_movement` only
(no entry in `movements`, no entry in `sequence`), and the direction is
left unchanged. -/
def cScanGo : Nat → Int → String → Int → List Int → Option RunAcc
  | _, _, _, head, [] => some ⟨0, [], [], [], 0, head⟩
  | 0, _, _, _, _ :: _ => none
  | fuel + 1, T, dir, head, x :: xs =>
    if dir = "right" then
      match pyMin ((x :: xs).filter (fun r => head ≤ r)) with
      | some nr =>
        (cScanGo fuel T dir nr ((x :: xs).erase nr)).map fun acc =>
          ⟨abs (head - nr) + acc.total, nr :: acc.seq,
            abs (head - nr) :: acc.movs, nr :: acc.serviced, acc.wraps, acc.final⟩
      | none =>
        (cScanGo fuel T dir 0 (x :: xs)).map fun acc =>
          ⟨abs (head - (T - 1)) + (T - 1) + acc.total, (T - 1) :: acc.seq,
            abs (head - (T - 1)) :: acc.movs, acc.serviced, acc.wraps + 1, acc.final⟩
    else
      match pyMax ((x :: xs).filter (fun r => r ≤ head)) with
      | some nr =>
        (cScanGo fuel T dir nr ((x :: xs).erase nr)).map fun acc =>
          ⟨abs (head - nr) + acc.total, nr :: acc.seq,
            abs (head - nr) :: acc.movs, nr :: acc.serviced, acc.wraps, acc.final⟩
      | none =>
        (cScanGo fuel T dir (T - 1) (x :: xs)).map fun acc =>
          ⟨abs (head - 0) + (T - 1) + acc.total, 0 :: acc.seq,
            abs (head - 0) :: acc.movs, acc.serviced, acc.wraps + 1, acc.final⟩

/-- The dictionary returned by each `Disk` scheduling method: total
movement, average seek (`total_movement / len(original_requests)` guarded
to `0` on an empty queue), sequence, movements and final position, plus
the two ghost fields of `RunAcc`. -/
structure ScheduleResult where
  total_movement : Int
  average_seek : Rat
  sequence : List Int
  movements : List Int
  serviced : List Int
  wraps : Nat
  final_position : Int
deriving DecidableEq

/-- Package a finished run as the result dictionary, computing
`average_seek` from the original request queue exactly as the source does
(`total_movement / len(...) if ... else 0`). -/
def mkResult (request_queue : List Int) (acc : RunAcc) : ScheduleResult :=
  ⟨acc.total,
    if request_queue = [] then 0
      else (acc.total : Rat) / (request_queue.length : Rat),
    acc.seq, acc.movs, acc.serviced, acc.wraps, acc.final⟩

/-- Model of `Disk.fcfs_schedule` (`disksimulation.py` lines 41-86). -/
def fcfs_schedule (start_head : Int) (request_queue : List Int) : ScheduleResult :=
  mkResult request_queue (fcfsGo start_head request_queue)

/-- Model of `Disk.sstf_schedule` (`disksimulation.py` lines 88-140); the loop
removes one request per iteration, so `request_queue.length` fuel is exact. -/
def sstf_schedule (start_head : Int) (request_queue : List Int) :
    Option ScheduleResult :=
  (sstfGo request_queue.length start_head request_queue).map (mkResult request_queue)

/-- Model of `Disk.scan_schedule` (`disksimulation.py` lines 142-244). -/
def scan_schedule (total_cylinders start_head : Int) (request_queue : List Int)
    (direction : String) : Option ScheduleResult :=
  (scanGo (2 * request_queue.length + 2) total_cylinders direction start_head
    request_queue).map (mkResult request_queue)

/-- Model of `Disk.c_scan_schedule` (`disksimulation.py` lines 246-364). -/
def c_scan_schedule (total_cylinders start_head : Int) (request_queue : List Int)
    (direction : String) : Option ScheduleResult :=
  (cScanGo (2 * request_queue.length + 2) total_cylinders direction start_head
    request_queue).map (mkResult request_queue)

/-- Ascending sort, modelling Python's `sorted` on a list of ints. -/
def sortAsc (l : List Int) : List Int := List.insertionSort (fun a b => a ≤ b) l

/-- The demo's `for r in ...` service loop (`workload_starvation_demo.py`):
accumulate `abs(current_head - r)` and append `r`, updating the head. -/
def walkAccum (head : Int) : List Int → Int × List Int
  | [] => (0, [])
  | r :: rs =>
    let p := walkAccum r rs
    (abs (head - r) + p.1, r :: p.2)

/-- Model of `Disk.scan_schedule` from `src/workload_starvation_demo.py` (lines 39-58):
sort the queue, service the side in the initial direction, then the other
side, with no synthetic boundary visit. -/
def demo_scan_schedule (total_cylinders current_head : Int)
    (request_queue : List Int) (direction : String) : Int × List Int :=
  let requests := sortAsc request_queue
  if direction = "right" then
    let right := requests.filter (fun r => current_head ≤ r)
    let left := (requests.filter (fun r => r < current_head)).reverse
    walkAccum current_head (right ++ left)
  else
    let left := (requests.filter (fun r => r ≤ current_head)).reverse
    let right := requests.filter (fun r => current_head < r)
    walkAccum current_head (left ++ right)

/-- Model of `Disk.c_scan_schedule` from `src/workload_starvation_demo.py` (lines
60-81): only the `'right'` direction is implemented; any other token falls
through and returns the initial `(0, [])`.  On the `'right'` path the jump
from the last right-side position to `total_cylinders - 1` is added to the
total, the head restarts at `0`, and the low side is serviced ascending. -/
def demo_c_scan_schedule (total_cylinders current_head : Int)
    (request_queue : List Int) (direction : String) : Int × List Int :=
  let requests := sortAsc request_queue
  if direction = "right" then
    let right := requests.filter (fun r => current_head ≤ r)
    let left := requests.filter (fun r => r < current_head)
    let p := walkAccum current_head right
    let h1 := lastPos current_head right
    if left = [] then p
    else
      let q := walkAccum 0 left
      (p.1 + abs (h1 - (total_cylinders - 1)) + q.1, p.2 ++ q.2)
  else (0, [])

lemma pyMin_eq_none {l : List Int} (h : pyMin l = none) : l = [] := by
  cases l with
  | nil => rfl
  | cons x xs =>
    exfalso
    simp only [pyMin] at h
    cases hxs : pyMin xs <;> simp [hxs] at h

lemma pyMin_spec {l : List Int} {m : Int} (h : pyMin l = some m) :
    m ∈ l ∧ ∀ x ∈ l, m ≤ x := by
  induction l generalizing m with
  | nil => simp [pyMin] at h
  | cons x xs ih =>
    simp only [pyMin] at h
    cases hxs : pyMin xs with
    | none =>
      rw [hxs] at h
      have hnil := pyMin_eq_none hxs
      subst hnil
      simp only [Option.some.injEq] at h
      subst h
      simp
    | some y =>
      rw [hxs] at h
      simp only [Option.some.injEq] at h
      obtain ⟨hy, hbd⟩ := ih hxs
      by_cases hlt : y < x
      · rw [if_pos hlt] at h
        subst h
        refine ⟨List.mem_cons_of_mem _ hy, ?_⟩
        intro z hz
        rcases List.mem_cons.mp hz with hz | hz
        · exact hz ▸ le_of_lt hlt
        · exact hbd z hz
      · rw [if_neg hlt] at h
        subst h
        refine ⟨List.mem_cons_self _ _, ?_⟩
        intro z hz
        rcases List.mem_cons.mp hz with hz | hz
        · exact hz ▸ le_refl _
        · exact le_trans (le_of_not_lt hlt) (hbd z hz)

lemma pyMax_eq_none {l : List Int} (h : pyMax l = none) : l = [] := by
  cases l with
  | nil => rfl
  | cons x xs =>
    exfalso
    simp only [pyMax] at h
    cases hxs : pyMax xs <;> simp [hxs] at h

lemma pyMax_spec {l : List Int} {m : Int} (h : pyMax l = some m) :
    m ∈ l ∧ ∀ x ∈ l, x ≤ m := by
  induction l generalizing m with
  | nil => simp [pyMax] at h
  | cons x xs ih =>
    simp only [pyMax] at h
    cases hxs : pyMax xs with
    | none =>
      rw [hxs] at h
      have hnil := pyMax_eq_none hxs
      subst hnil
      simp only [Option.some.injEq] at h
      subst h
      simp
    | some y =>
      rw [hxs] at h
      simp only [Option.some.injEq] at h
      obtain ⟨hy, hbd⟩ := ih hxs
      by_cases hlt : x < y
      · rw [if_pos hlt] at h
        subst h
        refine ⟨List.mem_cons_of_mem _ hy, ?_⟩
        intro z hz
        rcases List.mem_cons.mp hz with hz | hz
        · exact hz ▸ le_of_lt hlt
        · exact hbd z hz
      · rw [if_neg hlt] at h
        subst h
        refine ⟨List.mem_cons_self _ _, ?_⟩
        intro z hz
        rcases List.mem_cons.mp hz with hz | hz
        · exact hz ▸ le_refl _
        · exact le_trans (hbd z hz) (le_of_not_lt hlt)

lemma pyArgmin_spec {head : Int} {l : List Int} {c : Int}
    (h : pyArgmin head l = some c) :
    c ∈ l ∧ (∀ y ∈ l, abs (c - head) ≤ abs (y - head)) ∧
      l.find? (fun y => decide (abs (y - head) ≤ abs (c - head))) = some c := by
  induction l generalizing c with
  | nil => simp [pyArgmin] at h
  | cons x xs ih =>
    simp only [pyArgmin] at h
    cases hxs : pyArgmin head xs with
    | none =>
      rw [hxs] at h
      have hnil : xs = [] := by
        cases xs with
        | nil => rfl
        | cons a as =>
          exfalso
          simp only [pyArgmin] at hxs
          cases has : pyArgmin head as <;> simp [has] at hxs
      subst hnil
      simp only [Option.some.injEq] at h
      subst h
      refine ⟨List.mem_cons_self _ _, ?_, ?_⟩
      · intro y hy
        rcases List.mem_cons.mp hy with hy | hy
        · exact hy ▸ le_refl _
        · simp at hy
      · exact List.find?_cons_of_pos _ (by simp)
    | some y =>
      rw [hxs] at h
      simp only [Option.some.injEq] at h
      obtain ⟨hy, hbd, hfind⟩ := ih hxs
      by_cases hlt : abs (y - head) < abs (x - head)
      · rw [if_pos hlt] at h
        subst h
        refine ⟨List.mem_cons_of_mem _ hy, ?_, ?_⟩
        · intro z hz
          rcases List.mem_cons.mp hz with hz | hz
          · exact hz ▸ le_of_lt hlt
          · exact hbd z hz
        · rw [List.find?_cons_of_neg _ (by simpa using not_le_of_lt hlt)]
          exact hfind
      · rw [if_neg hlt] at h
        subst h
        refine ⟨List.mem_cons_self _ _, ?_, ?_⟩
        · intro z hz
          rcases List.mem_cons.mp hz with hz | hz
          · exact hz ▸ le_refl _
          · exact le_trans (le_of_not_lt hlt) (hbd z hz)
        · exact List.find?_cons_of_pos _ (by simp)

lemma filter_erase_pos {p : Int → Bool} {a : Int} (l : List Int)
    (hpa : p a = true) : (l.erase a).filter p = (l.filter p).erase a := by
  induction l with
  | nil => simp
  | cons x xs ih =>
    by_cases hxa : x = a
    · subst hxa
      rw [List.erase_cons_head]
      rw [List.filter_cons_of_pos hpa, List.erase_cons_head]
    · rw [List.erase_cons_tail (by simpa using hxa)]
      by_cases hpx : p x = true
      · rw [List.filter_cons_of_pos hpx, List.filter_cons_of_pos hpx,
          List.erase_cons_tail (by simpa using hxa), ih]
      · rw [List.filter_cons_of_neg (by simpa using hpx),
          List.filter_cons_of_neg (by simpa using hpx), ih]

lemma filter_erase_neg {p : Int → Bool} {a : Int} (l : List Int)
    (hpa : p a = false) : (l.erase a).filter p = l.filter p := by
  induction l with
  | nil => simp
  | cons x xs ih =>
    by_cases hxa : x = a
    · subst hxa
      rw [List.erase_cons_head, List.filter_cons_of_neg (by simp [hpa])]
    · rw [List.erase_cons_tail (by simpa using hxa)]
      by_cases hpx : p x = true
      · rw [List.filter_cons_of_pos hpx, List.filter_cons_of_pos hpx, ih]
      · rw [List.filter_cons_of_neg (by simpa using hpx),
          List.filter_cons_of_neg (by simpa using hpx), ih]

lemma sorted_le_unique {l1 l2 : List Int} (hp : l1.Perm l2)
    (h1 : List.Sorted (fun a b => a ≤ b) l1)
    (h2 : List.Sorted (fun a b => a ≤ b) l2) : l1 = l2 :=
  @List.eq_of_perm_of_sorted Int (fun a b => a ≤ b)
    ⟨fun a b ha hb => le_antisymm ha hb⟩ l1 l2 hp h1 h2

lemma lastPos_eq_or_mem (h : Int) (l : List Int) :
    lastPos h l = h ∨ lastPos h l ∈ l := by
  induction l generalizing h with
  | nil => left; rfl
  | cons x xs ih =>
    rcases ih x with hx | hx
    · right; rw [lastPos, hx]; exact List.mem_cons_self _ _
    · right; rw [lastPos]; exact List.mem_cons_of_mem _ hx

lemma walkMoves_append (h : Int) (xs ys : List Int) :
    walkMoves h (xs ++ ys) = walkMoves h xs ++ walkMoves (lastPos h xs) ys := by
  induction xs generalizing h with
  | nil => rfl
  | cons x xs ih =>
    simp only [List.cons_append, walkMoves, lastPos]
    rw [show xs.append ys = xs ++ ys from rfl, ih]

lemma walkAccum_fst (h : Int) (l : List Int) :
    (walkAccum h l).1 = (walkMoves h l).sum := by
  induction l generalizing h with
  | nil => rfl
  | cons x xs ih => simp only [walkAccum, walkMoves, List.sum_cons, ih]

lemma walkAccum_snd (h : Int) (l : List Int) : (walkAccum h l).2 = l := by
  induction l generalizing h with
  | nil => rfl
  | cons x xs ih => simp only [walkAccum, ih]

lemma pyArgmin_cons_isSome (head x : Int) (xs : List Int) :
    ∃ c, pyArgmin head (x :: xs) = some c := by
  simp only [pyArgmin]
  cases pyArgmin head xs <;> exact ⟨_, rfl⟩

lemma fcfs_run (h : Int) (reqs : List Int) :
    (fcfsGo h reqs).seq = reqs ∧ (fcfsGo h reqs).serviced = reqs ∧
      (fcfsGo h reqs).movs = walkMoves h reqs ∧
      (fcfsGo h reqs).total = (walkMoves h reqs).sum ∧
      (fcfsGo h reqs).final = lastPos h reqs ∧ (fcfsGo h reqs).wraps = 0 := by
  induction reqs generalizing h with
  | nil => exact ⟨rfl, rfl, rfl, rfl, rfl, rfl⟩
  | cons x xs ih =>
    obtain ⟨h1, h2, h3, h4, h5, h6⟩ := ih x
    refine ⟨?_, ?_, ?_, ?_, ?_, ?_⟩ <;>
      simp only [fcfsGo, walkMoves, lastPos, List.sum_cons, h1, h2, h3, h4, h5, h6]

lemma sstf_run : ∀ (fuel : Nat) (reqs : List Int) (head : Int),
    reqs.length ≤ fuel →
    ∃ acc, sstfGo fuel head reqs = some acc ∧ acc.seq.Perm reqs ∧
      acc.serviced = acc.seq ∧ acc.movs = walkMoves head acc.seq ∧
      acc.total = acc.movs.sum ∧ acc.final = lastPos head acc.seq ∧
      acc.wraps = 0 := by
  intro fuel
  induction fuel with
  | zero =>
    intro reqs head hlen
    have : reqs = [] := List.length_eq_zero.mp (Nat.le_zero.mp hlen)
    subst this
    exact ⟨_, rfl, List.Perm.refl _, rfl, rfl, rfl, rfl, rfl⟩
  | succ n ih =>
    intro reqs head hlen
    cases reqs with
    | nil => exact ⟨_, rfl, List.Perm.refl _, rfl, rfl, rfl, rfl, rfl⟩
    | cons x xs =>
      obtain ⟨c, hc⟩ := pyArgmin_cons_isSome head x xs
      have hcmem : c ∈ x :: xs := (pyArgmin_spec hc).1
      have herase : ((x :: xs).erase c).length ≤ n := by
        rw [List.length_erase_of_mem hcmem]
        simp only [List.length_cons] at hlen ⊢
        omega
      obtain ⟨acc2, hrec, hperm, hserv, hmovs, htot, hfin, hwr⟩ :=
        ih ((x :: xs).erase c) c herase
      refine ⟨⟨abs (head - c) + acc2.total, c :: acc2.seq,
        abs (head - c) :: acc2.movs, c :: acc2.serviced, acc2.wraps,
        acc2.final⟩, ?_, ?_, ?_, ?_, ?_, ?_, ?_⟩
      · simp only [sstfGo, hc, hrec, Option.map_some']
      · exact List.Perm.trans (List.Perm.cons c hperm)
          (List.perm_cons_erase hcmem).symm
      · simp only [hserv]
      · simp only [walkMoves, hmovs]
      · simp only [htot, List.sum_cons]
      · simp only [lastPos, hfin]
      · exact hwr

lemma scan_run_props : ∀ (fuel : Nat) (T : Int) (dir : String) (head : Int)
    (reqs : List Int) (acc : RunAcc), scanGo fuel T dir head reqs = some acc →
    acc.movs = walkMoves head acc.seq ∧ acc.total = acc.movs.sum ∧
      acc.final = lastPos head acc.seq ∧ acc.serviced.Perm reqs ∧
      acc.wraps = 0 := by
  intro fuel
  induction fuel with
  | zero =>
    intro T dir head reqs acc hrun
    cases reqs with
    | nil =>
      simp only [scanGo, Option.some.injEq] at hrun
      subst hrun
      exact ⟨rfl, rfl, rfl, List.Perm.refl _, rfl⟩
    | cons x xs => simp [scanGo] at hrun
  | succ n ih =>
    intro T dir head reqs acc hrun
    cases reqs with
    | nil =>
      simp only [scanGo, Option.some.injEq] at hrun
      subst hrun
      exact ⟨rfl, rfl, rfl, List.Perm.refl _, rfl⟩
    | cons x xs =>
      simp only [scanGo] at hrun
      by_cases hd : dir = "right"
      · rw [if_pos hd] at hrun
        cases hmin : pyMin ((x :: xs).filter (fun r => head ≤ r)) with
        | some nr =>
          rw [hmin, Option.map_eq_some'] at hrun
          obtain ⟨acc2, hrec, heq⟩ := hrun
          obtain ⟨hmovs, htot, hfin, hperm, hwr⟩ := ih T dir nr _ acc2 hrec
          have hmem : nr ∈ x :: xs :=
            (List.mem_filter.mp (pyMin_spec hmin).1).1
          subst heq
          refine ⟨?_, ?_, ?_, ?_, ?_⟩
          · simp only [walkMoves, hmovs]
          · simp only [htot, List.sum_cons]
          · simp only [lastPos, hfin]
          · exact List.Perm.trans (List.Perm.cons nr hperm)
              (List.perm_cons_erase hmem).symm
          · simpa using hwr
        | none =>
          rw [hmin, Option.map_eq_some'] at hrun
          obtain ⟨acc2, hrec, heq⟩ := hrun
          obtain ⟨hmovs, htot, hfin, hperm, hwr⟩ := ih T "left" (T - 1) _ acc2 hrec
          subst heq
          exact ⟨by simp only [walkMoves, hmovs],
            by simp only [htot, List.sum_cons],
            by simp only [lastPos, hfin], hperm, by simpa using hwr⟩
      · rw [if_neg hd] at hrun
        cases hmax : pyMax ((x :: xs).filter (fun r => r ≤ head)) with
        | some nr =>
          rw [hmax, Option.map_eq_some'] at hrun
          obtain ⟨acc2, hrec, heq⟩ := hrun
          obtain ⟨hmovs, htot, hfin, hperm, hwr⟩ := ih T dir nr _ acc2 hrec
          have hmem : nr ∈ x :: xs :=
            (List.mem_filter.mp (pyMax_spec hmax).1).1
          subst heq
          refine ⟨?_, ?_, ?_, ?_, ?_⟩
          · simp only [walkMoves, hmovs]
          · simp only [htot, List.sum_cons]
          · simp only [lastPos, hfin]
          · exact List.Perm.trans (List.Perm.cons nr hperm)
              (List.perm_cons_erase hmem).symm
          · simpa using hwr
        | none =>
          rw [hmax, Option.map_eq_some'] at hrun
          obtain ⟨acc2, hrec, heq⟩ := hrun
          obtain ⟨hmovs, htot, hfin, hperm, hwr⟩ := ih T "right" 0 _ acc2 hrec
          subst heq
          exact ⟨by simp only [walkMoves, hmovs],
            by simp only [htot, List.sum_cons],
            by simp only [lastPos, hfin], hperm, by simpa using hwr⟩

lemma cscan_run_props : ∀ (fuel : Nat) (T : Int) (dir : String) (head : Int)
    (reqs : List Int) (acc : RunAcc), cScanGo fuel T dir head reqs = some acc →
    acc.total = acc.movs.sum + (T - 1) * (acc.wraps : Int) ∧
      acc.serviced.Perm reqs := by
  intro fuel
  induction fuel with
  | zero =>
    intro T dir head reqs acc hrun
    cases reqs with
    | nil =>
      simp only [cScanGo, Option.some.injEq] at hrun
      subst hrun
      exact ⟨by simp, List.Perm.refl _⟩
    | cons x xs => simp [cScanGo] at hrun
  | succ n ih =>
    intro T dir head reqs acc hrun
    cases reqs with
    | nil =>
      simp only [cScanGo, Option.some.injEq] at hrun
      subst hrun
      exact ⟨by simp, List.Perm.refl _⟩
    | cons x xs =>
      simp only [cScanGo] at hrun
      by_cases hd : dir = "right"
      · rw [if_pos hd] at hrun
        cases hmin : pyMin ((x :: xs).filter (fun r => head ≤ r)) with
        | some nr =>
          rw [hmin, Option.map_eq_some'] at hrun
          obtain ⟨acc2, hrec, heq⟩ := hrun
          obtain ⟨htot, hperm⟩ := ih T dir nr _ acc2 hrec
          have hmem : nr ∈ x :: xs :=
            (List.mem_filter.mp (pyMin_spec hmin).1).1
          subst heq
          refine ⟨?_, ?_⟩
          · simp only [htot, List.sum_cons]
            ring
          · exact List.Perm.trans (List.Perm.cons nr hperm)
              (List.perm_cons_erase hmem).symm
        | none =>
          rw [hmin, Option.map_eq_some'] at hrun
          obtain ⟨acc2, hrec, heq⟩ := hrun
          obtain ⟨htot, hperm⟩ := ih T dir 0 _ acc2 hrec
          subst heq
          refine ⟨?_, hperm⟩
          simp only [htot, List.sum_cons]
          push_cast
          ring
      · rw [if_neg hd] at hrun
        cases hmax : pyMax ((x :: xs).filter (fun r => r ≤ head)) with
        | some nr =>
          rw [hmax, Option.map_eq_some'] at hrun
          obtain ⟨acc2, hrec, heq⟩ := hrun
          obtain ⟨htot, hperm⟩ := ih T dir nr _ acc2 hrec
          have hmem : nr ∈ x :: xs :=
            (List.mem_filter.mp (pyMax_spec hmax).1).1
          subst heq
          refine ⟨?_, ?_⟩
          · simp only [htot, List.sum_cons]
            ring
          · exact List.Perm.trans (List.Perm.cons nr hperm)
              (List.perm_cons_erase hmem).symm
        | none =>
          rw [hmax, Option.map_eq_some'] at hrun
          obtain ⟨acc2, hrec, heq⟩ := hrun
          obtain ⟨htot, hperm⟩ := ih T dir (T - 1) _ acc2 hrec
          subst heq
          refine ⟨?_, hperm⟩
          simp only [htot, List.sum_cons]
          push_cast
          ring

lemma scanGo_dir_of_ne : ∀ (fuel : Nat) (T head : Int) (reqs : List Int)
    {dir : String}, dir ≠ "right" →
    scanGo fuel T dir head reqs = scanGo fuel T "left" head reqs := by
  intro fuel
  induction fuel with
  | zero => intro T head reqs dir hd; cases reqs <;> rfl
  | succ n ih =>
    intro T head reqs dir hd
    cases reqs with
    | nil => rfl
    | cons x xs =>
      simp only [scanGo, if_neg hd, if_neg (by decide : ¬("left" = "right"))]
      cases hmax : pyMax ((x :: xs).filter (fun r => r ≤ head)) with
      | some nr =>
        dsimp only
        rw [ih T nr ((x :: xs).erase nr) hd]
      | none => rfl

lemma cScanGo_dir_of_ne : ∀ (fuel : Nat) (T head : Int) (reqs : List Int)
    {dir : String}, dir ≠ "right" →
    cScanGo fuel T dir head reqs = cScanGo fuel T "left" head reqs := by
  intro fuel
  induction fuel with
  | zero => intro T head reqs dir hd; cases reqs <;> rfl
  | succ n ih =>
    intro T head reqs dir hd
    cases reqs with
    | nil => rfl
    | cons x xs =>
      simp only [cScanGo, if_neg hd, if_neg (by decide : ¬("left" = "right"))]
      cases hmax : pyMax ((x :: xs).filter (fun r => r ≤ head)) with
      | some nr =>
        dsimp only
        rw [ih T nr ((x :: xs).erase nr) hd]
      | none =>
        dsimp only
        rw [ih T (T - 1) (x :: xs) hd]

lemma pyMin_cons_isSome (x : Int) (xs : List Int) :
    ∃ m, pyMin (x :: xs) = some m := by
  simp only [pyMin]
  cases pyMin xs <;> exact ⟨_, rfl⟩

lemma pyMax_cons_isSome (x : Int) (xs : List Int) :
    ∃ m, pyMax (x :: xs) = some m := by
  simp only [pyMax]
  cases pyMax xs <;> exact ⟨_, rfl⟩

lemma scan_Lsweep : ∀ (fuel : Nat) (T : Int) (dir : String) (head : Int)
    (reqs : List Int), dir ≠ "right" → reqs.length ≤ fuel →
    (∀ x ∈ reqs, x ≤ head) →
    ∃ acc, scanGo fuel T dir head reqs = some acc ∧ acc.seq = acc.serviced ∧
      acc.serviced.Perm reqs ∧ List.Sorted (fun a b => b ≤ a) acc.serviced := by
  intro fuel
  induction fuel with
  | zero =>
    intro T dir head reqs hd hlen hall
    have : reqs = [] := List.length_eq_zero.mp (Nat.le_zero.mp hlen)
    subst this
    exact ⟨_, rfl, rfl, List.Perm.refl _, List.sorted_nil⟩
  | succ n ih =>
    intro T dir head reqs hd hlen hall
    cases reqs with
    | nil => exact ⟨_, rfl, rfl, List.Perm.refl _, List.sorted_nil⟩
    | cons x xs =>
      have hfe : (x :: xs).filter (fun r => decide (r ≤ head)) = x :: xs :=
        List.filter_eq_self.mpr fun a ha => decide_eq_true (hall a ha)
      obtain ⟨m, hmax⟩ := pyMax_cons_isSome x xs
      obtain ⟨hmem, hbd⟩ := pyMax_spec hmax
      have herase : ((x :: xs).erase m).length ≤ n := by
        rw [List.length_erase_of_mem hmem]
        simp only [List.length_cons] at hlen ⊢
        omega
      have hall2 : ∀ y ∈ (x :: xs).erase m, y ≤ m :=
        fun y hy => hbd y (List.mem_of_mem_erase hy)
      obtain ⟨acc2, hrec, hseq, hperm, hsort⟩ :=
        ih T dir m ((x :: xs).erase m) hd herase hall2
      refine ⟨⟨abs (head - m) + acc2.total, m :: acc2.seq,
        abs (head - m) :: acc2.movs, m :: acc2.serviced, acc2.wraps,
        acc2.final⟩, ?_, ?_, ?_, ?_⟩
      · simp only [scanGo, if_neg hd, hfe, hmax, hrec, Option.map_some']
      · simp only [hseq]
      · exact List.Perm.trans (List.Perm.cons m hperm)
          (List.perm_cons_erase hmem).symm
      · refine List.sorted_cons.mpr ⟨?_, hsort⟩
        intro b hb
        exact hall2 b (hperm.mem_iff.mp hb)

lemma scan_Rsweep : ∀ (fuel : Nat) (T head : Int) (reqs : List Int),
    reqs.length ≤ fuel → (∀ x ∈ reqs, head ≤ x) →
    ∃ acc, scanGo fuel T "right" head reqs = some acc := by
  intro fuel
  induction fuel with
  | zero =>
    intro T head reqs hlen hall
    have : reqs = [] := List.length_eq_zero.mp (Nat.le_zero.mp hlen)
    subst this
    exact ⟨_, rfl⟩
  | succ n ih =>
    intro T head reqs hlen hall
    cases reqs with
    | nil => exact ⟨_, rfl⟩
    | cons x xs =>
      have hfe : (x :: xs).filter (fun r => decide (head ≤ r)) = x :: xs :=
        List.filter_eq_self.mpr fun a ha => decide_eq_true (hall a ha)
      obtain ⟨m, hmin⟩ := pyMin_cons_isSome x xs
      obtain ⟨hmem, hbd⟩ := pyMin_spec hmin
      have herase : ((x :: xs).erase m).length ≤ n := by
        rw [List.length_erase_of_mem hmem]
        simp only [List.length_cons] at hlen ⊢
        omega
      have hall2 : ∀ y ∈ (x :: xs).erase m, m ≤ y :=
        fun y hy => hbd y (List.mem_of_mem_erase hy)
      obtain ⟨acc2, hrec⟩ := ih T m ((x :: xs).erase m) herase hall2
      refine ⟨⟨abs (head - m) + acc2.total, m :: acc2.seq,
        abs (head - m) :: acc2.movs, m :: acc2.serviced, acc2.wraps,
        acc2.final⟩, ?_⟩
      simp only [scanGo, eq_self_iff_true, if_true, hfe, hmin, hrec, Option.map_some']

lemma cscan_Rsweep : ∀ (fuel : Nat) (T head : Int) (reqs : List Int),
    reqs.length ≤ fuel → (∀ x ∈ reqs, head ≤ x) →
    ∃ acc, cScanGo fuel T "right" head reqs = some acc := by
  intro fuel
  induction fuel with
  | zero =>
    intro T head reqs hlen hall
    have : reqs = [] := List.length_eq_zero.mp (Nat.le_zero.mp hlen)
    subst this
    exact ⟨_, rfl⟩
  | succ n ih =>
    intro T head reqs hlen hall
    cases reqs with
    | nil => exact ⟨_, rfl⟩
    | cons x xs =>
      have hfe : (x :: xs).filter (fun r => decide (head ≤ r)) = x :: xs :=
        List.filter_eq_self.mpr fun a ha => decide_eq_true (hall a ha)
      obtain ⟨m, hmin⟩ := pyMin_cons_isSome x xs
      obtain ⟨hmem, hbd⟩ := pyMin_spec hmin
      have herase : ((x :: xs).erase m).length ≤ n := by
        rw [List.length_erase_of_mem hmem]
        simp only [List.length_cons] at hlen ⊢
        omega
      have hall2 : ∀ y ∈ (x :: xs).erase m, m ≤ y :=
        fun y hy => hbd y (List.mem_of_mem_erase hy)
      obtain ⟨acc2, hrec⟩ := ih T m ((x :: xs).erase m) herase hall2
      refine ⟨⟨abs (head - m) + acc2.total, m :: acc2.seq,
        abs (head - m) :: acc2.movs, m :: acc2.serviced, acc2.wraps,
        acc2.final⟩, ?_⟩
      simp only [cScanGo, eq_self_iff_true, if_true, hfe, hmin, hrec, Option.map_some']

lemma cscan_Lsweep : ∀ (fuel : Nat) (T : Int) (dir : String) (head : Int)
    (reqs : List Int), dir ≠ "right" → reqs.length ≤ fuel →
    (∀ x ∈ reqs, x ≤ head) →
    ∃ acc, cScanGo fuel T dir head reqs = some acc := by
  intro fuel
  induction fuel with
  | zero =>
    intro T dir head reqs hd hlen hall
    have : reqs = [] := List.length_eq_zero.mp (Nat.le_zero.mp hlen)
    subst this
    exact ⟨_, rfl⟩
  | succ n ih =>
    intro T dir head reqs hd hlen hall
    cases reqs with
    | nil => exact ⟨_, rfl⟩
    | cons x xs =>
      have hfe : (x :: xs).filter (fun r => decide (r ≤ head)) = x :: xs :=
        List.filter_eq_self.mpr fun a ha => decide_eq_true (hall a ha)
      obtain ⟨m, hmax⟩ := pyMax_cons_isSome x xs
      obtain ⟨hmem, hbd⟩ := pyMax_spec hmax
      have herase : ((x :: xs).erase m).length ≤ n := by
        rw [List.length_erase_of_mem hmem]
        simp only [List.length_cons] at hlen ⊢
        omega
      have hall2 : ∀ y ∈ (x :: xs).erase m, y ≤ m :=
        fun y hy => hbd y (List.mem_of_mem_erase hy)
      obtain ⟨acc2, hrec⟩ := ih T dir m ((x :: xs).erase m) hd herase hall2
      refine ⟨⟨abs (head - m) + acc2.total, m :: acc2.seq,
        abs (head - m) :: acc2.movs, m :: acc2.serviced, acc2.wraps,
        acc2.final⟩, ?_⟩
      simp only [cScanGo, if_neg hd, hfe, hmax, hrec, Option.map_some']

lemma scan_right_phase : ∀ (fuel : Nat) (T head : Int) (reqs : List Int),
    reqs.length + 1 ≤ fuel → (∀ x ∈ reqs, x ≤ T - 1) →
    ∃ acc A D, scanGo fuel T "right" head reqs = some acc ∧
      acc.serviced = A ++ D ∧
      acc.seq = A ++ (if D = [] then ([] : List Int) else (T - 1) :: D) ∧
      A.Perm (reqs.filter (fun r => head ≤ r)) ∧
      List.Sorted (fun a b => a ≤ b) A ∧ (∀ y ∈ A, head ≤ y) ∧
      D.Perm (reqs.filter (fun r => r < head)) ∧
      List.Sorted (fun a b => b ≤ a) D := by
  intro fuel
  induction fuel with
  | zero =>
    intro T head reqs hlen hT
    exact (Nat.not_succ_le_zero _ hlen).elim
  | succ n ih =>
    intro T head reqs hlen hT
    cases reqs with
    | nil =>
      refine ⟨⟨0, [], [], [], 0, head⟩, [], [], rfl, rfl, ?_, ?_,
        List.sorted_nil, ?_, ?_, List.sorted_nil⟩
      · simp
      · simp
      · simp
      · simp
    | cons x xs =>
      cases hmin : pyMin ((x :: xs).filter (fun r => decide (head ≤ r))) with
      | some m =>
        have hmf : m ∈ (x :: xs).filter (fun r => decide (head ≤ r)) :=
          (pyMin_spec hmin).1
        have hbdf := (pyMin_spec hmin).2
        have hmem : m ∈ x :: xs := (List.mem_filter.mp hmf).1
        have hmhead : head ≤ m := of_decide_eq_true (List.mem_filter.mp hmf).2
        have hminbd : ∀ y ∈ x :: xs, head ≤ y → m ≤ y := by
          intro y hy hhy
          exact hbdf y (List.mem_filter.mpr ⟨hy, decide_eq_true hhy⟩)
        have herase : ((x :: xs).erase m).length + 1 ≤ n := by
          rw [List.length_erase_of_mem hmem]
          simp only [List.length_cons] at hlen ⊢
          omega
        have hT2 : ∀ y ∈ (x :: xs).erase m, y ≤ T - 1 :=
          fun y hy => hT y (List.mem_of_mem_erase hy)
        obtain ⟨acc2, A2, D2, hrec, hserv, hseq, hAperm, hAsort, hAbd,
          hDperm, hDsort⟩ := ih T m ((x :: xs).erase m) herase hT2
        have hfc : ((x :: xs).erase m).filter (fun r => decide (m ≤ r)) =
            ((x :: xs).erase m).filter (fun r => decide (head ≤ r)) := by
          apply List.filter_congr
          intro y hy
          have hym : y ∈ x :: xs := List.mem_of_mem_erase hy
          simp only [decide_eq_decide]
          exact ⟨fun h2 => le_trans hmhead h2, fun h2 => hminbd y hym h2⟩
        have hfe : ((x :: xs).erase m).filter (fun r => decide (head ≤ r)) =
            ((x :: xs).filter (fun r => decide (head ≤ r))).erase m :=
          filter_erase_pos _ (decide_eq_true hmhead)
        have hfd : ((x :: xs).erase m).filter (fun r => decide (r < m)) =
            ((x :: xs).erase m).filter (fun r => decide (r < head)) := by
          apply List.filter_congr
          intro y hy
          have hym : y ∈ x :: xs := List.mem_of_mem_erase hy
          simp only [decide_eq_decide]
          constructor
          · intro h2
            by_contra h3
            exact absurd (hminbd y hym (le_of_not_lt h3)) (not_le_of_lt h2)
          · intro h2
            exact lt_of_lt_of_le h2 hmhead
        have hfd2 : ((x :: xs).erase m).filter (fun r => decide (r < head)) =
            (x :: xs).filter (fun r => decide (r < head)) :=
          filter_erase_neg _ (decide_eq_false (not_lt_of_le hmhead))
        refine ⟨⟨abs (head - m) + acc2.total, m :: acc2.seq,
          abs (head - m) :: acc2.movs, m :: acc2.serviced, acc2.wraps,
          acc2.final⟩, m :: A2, D2, ?_, ?_, ?_, ?_, ?_, ?_, ?_, hDsort⟩
        · simp only [scanGo, eq_self_iff_true, if_true, hmin, hrec,
            Option.map_some']
        · simp only [hserv, List.cons_append]
        · simp only [hseq, List.cons_append]
        · have h1 : A2.Perm
              (((x :: xs).filter (fun r => decide (head ≤ r))).erase m) := by
            rw [← hfe, ← hfc]
            exact hAperm
          exact List.Perm.trans (List.Perm.cons m h1)
            (List.perm_cons_erase hmf).symm
        · exact List.sorted_cons.mpr ⟨hAbd, hAsort⟩
        · intro y hy
          rcases List.mem_cons.mp hy with hy | hy
          · exact hy ▸ hmhead
          · exact le_trans hmhead (hAbd y hy)
        · rw [← hfd2, ← hfd]
          exact hDperm
      | none =>
        have hnil : (x :: xs).filter (fun r => decide (head ≤ r)) = [] :=
          pyMin_eq_none hmin
        have hlow : ∀ y ∈ x :: xs, y < head := by
          intro y hy
          have h2 := List.filter_eq_nil_iff.mp hnil y hy
          exact lt_of_not_le (by simpa using h2)
        have hfl : (x :: xs).filter (fun r => decide (r < head)) = x :: xs :=
          List.filter_eq_self.mpr fun a ha => decide_eq_true (hlow a ha)
        have hlen2 : (x :: xs).length ≤ n := by
          simp only [List.length_cons] at hlen ⊢
          omega
        obtain ⟨acc2, hrec, hseq2, hperm2, hsort2⟩ :=
          scan_Lsweep n T "left" (T - 1) (x :: xs) (by decide) hlen2 hT
        have hDne : acc2.serviced ≠ [] := by
          intro h0
          rw [h0] at hperm2
          exact List.cons_ne_nil x xs hperm2.symm.eq_nil
        refine ⟨⟨abs (head - (T - 1)) + acc2.total, (T - 1) :: acc2.seq,
          abs (head - (T - 1)) :: acc2.movs, acc2.serviced, acc2.wraps,
          acc2.final⟩, [], acc2.serviced, ?_, ?_, ?_, ?_, List.sorted_nil,
          ?_, ?_, hsort2⟩
        · simp only [scanGo, eq_self_iff_true, if_true, hmin, hrec,
            Option.map_some']
        · simp only [List.nil_append]
        · simp only [List.nil_append, if_neg hDne, hseq2]
        · rw [hnil]
        · simp
        · rw [hfl]
          exact hperm2

lemma scan_other_phase : ∀ (fuel : Nat) (T : Int) (dir : String) (head : Int)
    (reqs : List Int), dir ≠ "right" → reqs.length + 1 ≤ fuel →
    (∀ x ∈ reqs, 0 ≤ x) →
    ∃ acc, scanGo fuel T dir head reqs = some acc := by
  intro fuel
  induction fuel with
  | zero =>
    intro T dir head reqs hd hlen h0
    exact (Nat.not_succ_le_zero _ hlen).elim
  | succ n ih =>
    intro T dir head reqs hd hlen h0
    cases reqs with
    | nil => exact ⟨_, rfl⟩
    | cons x xs =>
      cases hmax : pyMax ((x :: xs).filter (fun r => decide (r ≤ head))) with
      | some m =>
        have hmem : m ∈ x :: xs := (List.mem_filter.mp (pyMax_spec hmax).1).1
        have herase : ((x :: xs).erase m).length + 1 ≤ n := by
          rw [List.length_erase_of_mem hmem]
          simp only [List.length_cons] at hlen ⊢
          omega
        obtain ⟨acc2, hrec⟩ := ih T dir m ((x :: xs).erase m) hd herase
          (fun y hy => h0 y (List.mem_of_mem_erase hy))
        refine ⟨⟨abs (head - m) + acc2.total, m :: acc2.seq,
          abs (head - m) :: acc2.movs, m :: acc2.serviced, acc2.wraps,
          acc2.final⟩, ?_⟩
        simp only [scanGo, if_neg hd, hmax, hrec, Option.map_some']
      | none =>
        have hlen2 : (x :: xs).length ≤ n := by
          simp only [List.length_cons] at hlen ⊢
          omega
        obtain ⟨acc2, hrec⟩ := scan_Rsweep n T 0 (x :: xs) hlen2 h0
        refine ⟨⟨abs (head - 0) + acc2.total, 0 :: acc2.seq,
          abs (head - 0) :: acc2.movs, acc2.serviced, acc2.wraps,
          acc2.final⟩, ?_⟩
        simp only [scanGo, if_neg hd, hmax, hrec, Option.map_some']

lemma cscan_right_phase : ∀ (fuel : Nat) (T head : Int) (reqs : List Int),
    reqs.length + 1 ≤ fuel → (∀ x ∈ reqs, 0 ≤ x) →
    ∃ acc, cScanGo fuel T "right" head reqs = some acc := by
  intro fuel
  induction fuel with
  | zero =>
    intro T head reqs hlen h0
    exact (Nat.not_succ_le_zero _ hlen).elim
  | succ n ih =>
    intro T head reqs hlen h0
    cases reqs with
    | nil => exact ⟨_, rfl⟩
    | cons x xs =>
      cases hmin : pyMin ((x :: xs).filter (fun r => decide (head ≤ r))) with
      | some m =>
        have hmem : m ∈ x :: xs := (List.mem_filter.mp (pyMin_spec hmin).1).1
        have herase : ((x :: xs).erase m).length + 1 ≤ n := by
          rw [List.length_erase_of_mem hmem]
          simp only [List.length_cons] at hlen ⊢
          omega
        obtain ⟨acc2, hrec⟩ := ih T m ((x :: xs).erase m) herase
          (fun y hy => h0 y (List.mem_of_mem_erase hy))
        refine ⟨⟨abs (head - m) + acc2.total, m :: acc2.seq,
          abs (head - m) :: acc2.movs, m :: acc2.serviced, acc2.wraps,
          acc2.final⟩, ?_⟩
        simp only [cScanGo, eq_self_iff_true, if_true, hmin, hrec,
          Option.map_some']
      | none =>
        have hlen2 : (x :: xs).length ≤ n := by
          simp only [List.length_cons] at hlen ⊢
          omega
        obtain ⟨acc2, hrec⟩ := cscan_Rsweep n T 0 (x :: xs) hlen2 h0
        refine ⟨⟨abs (head - (T - 1)) + (T - 1) + acc2.total,
          (T - 1) :: acc2.seq, abs (head - (T - 1)) :: acc2.movs,
          acc2.serviced, acc2.wraps + 1, acc2.final⟩, ?_⟩
        simp only [cScanGo, eq_self_iff_true, if_true, hmin, hrec,
          Option.map_some']

lemma cscan_other_phase : ∀ (fuel : Nat) (T : Int) (dir : String) (head : Int)
    (reqs : List Int), dir ≠ "right" → reqs.length + 1 ≤ fuel →
    (∀ x ∈ reqs, x ≤ T - 1) →
    ∃ acc, cScanGo fuel T dir head reqs = some acc := by
  intro fuel
  induction fuel with
  | zero =>
    intro T dir head reqs hd hlen hT
    exact (Nat.not_succ_le_zero _ hlen).elim
  | succ n ih =>
    intro T dir head reqs hd hlen hT
    cases reqs with
    | nil => exact ⟨_, rfl⟩
    | cons x xs =>
      cases hmax : pyMax ((x :: xs).filter (fun r => decide (r ≤ head))) with
      | some m =>
        have hmem : m ∈ x :: xs := (List.mem_filter.mp (pyMax_spec hmax).1).1
        have herase : ((x :: xs).erase m).length + 1 ≤ n := by
          rw [List.length_erase_of_mem hmem]
          simp only [List.length_cons] at hlen ⊢
          omega
        obtain ⟨acc2, hrec⟩ := ih T dir m ((x :: xs).erase m) hd herase
          (fun y hy => hT y (List.mem_of_mem_erase hy))
        refine ⟨⟨abs (head - m) + acc2.total, m :: acc2.seq,
          abs (head - m) :: acc2.movs, m :: acc2.serviced, acc2.wraps,
          acc2.final⟩, ?_⟩
        simp only [cScanGo, if_neg hd, hmax, hrec, Option.map_some']
      | none =>
        have hlen2 : (x :: xs).length ≤ n := by
          simp only [List.length_cons] at hlen ⊢
          omega
        obtain ⟨acc2, hrec⟩ := cscan_Lsweep n T dir (T - 1) (x :: xs) hd hlen2 hT
        refine ⟨⟨abs (head - 0) + (T - 1) + acc2.total, 0 :: acc2.seq,
          abs (head - 0) :: acc2.movs, acc2.serviced, acc2.wraps + 1,
          acc2.final⟩, ?_⟩
        simp only [cScanGo, if_neg hd, hmax, hrec, Option.map_some']

/-- C1 (amended): movement accounting of the four algorithms.  For FCFS,
SSTF and SCAN, `total_movement` is the sum of `movements`, and `movements`
is reproduced by re-walking `sequence` from the start head.  For C-SCAN,
`total_movement` exceeds the sum of `movements` by `totalCylinders - 1`
per wrap jump (the jump cost has no `movements` entry). -/
def SumSpec (T start_head : Int) (reqs : List Int) (dir : String) : Prop :=
  ((fcfs_schedule start_head reqs).total_movement =
      (fcfs_schedule start_head reqs).movements.sum ∧
    (fcfs_schedule start_head reqs).movements =
      walkMoves start_head (fcfs_schedule start_head reqs).sequence) ∧
  (∃ r, sstf_schedule start_head reqs = some r ∧
    r.total_movement = r.movements.sum ∧
    r.movements = walkMoves start_head r.sequence) ∧
  (∃ r, scan_schedule T start_head reqs dir = some r ∧
    r.total_movement = r.movements.sum ∧
    r.movements = walkMoves start_head r.sequence) ∧
  (∃ r, c_scan_schedule T start_head reqs dir = some r ∧
    r.total_movement = r.movements.sum + (T - 1) * (r.wraps : Int))

/-- C7: each algorithm terminates on valid inputs and services exactly the
original requests (a permutation with multiplicity), the synthetic
boundary/wrap visits being excluded via the ghost `serviced` field. -/
def PermSpec (T start_head : Int) (reqs : List Int) (dir : String) : Prop :=
  (fcfs_schedule start_head reqs).serviced.Perm reqs ∧
  (∃ r, sstf_schedule start_head reqs = some r ∧ r.serviced.Perm reqs) ∧
  (∃ r, scan_schedule T start_head reqs dir = some r ∧ r.serviced.Perm reqs) ∧
  (∃ r, c_scan_schedule T start_head reqs dir = some r ∧ r.serviced.Perm reqs)

/-- C5: one SSTF step.  The chosen element is a member of the working copy,
minimizes the distance to the head, is the first element attaining that
minimum (`find?` with the distance bound returns it, so ties are broken by
remaining-queue order), and servicing removes exactly one matching
occurrence; the last conjunct ties this characterisation to the actual
step taken by `sstfGo`. -/
def SstfStepSpec (head : Int) (reqs : List Int) : Prop :=
  ∃ c, pyArgmin head reqs = some c ∧ c ∈ reqs ∧
    (∀ y ∈ reqs, abs (c - head) ≤ abs (y - head)) ∧
    reqs.find? (fun y => decide (abs (y - head) ≤ abs (c - head))) = some c ∧
    (reqs.erase c).length + 1 = reqs.length ∧
    (reqs.erase c).count c + 1 = reqs.count c ∧
    (∀ z, z ≠ c → (reqs.erase c).count z = reqs.count z) ∧
    (∀ fuel, sstfGo (fuel + 1) head reqs =
      (sstfGo fuel c (reqs.erase c)).map fun acc =>
        ⟨abs (head - c) + acc.total, c :: acc.seq, abs (head - c) :: acc.movs,
          c :: acc.serviced, acc.wraps, acc.final⟩)

/-- C2 (amended): the engine performs no input validation.  `scan_schedule`
and `c_scan_schedule` treat every direction token other than `"right"`
exactly as `"left"`, and out-of-range heads, requests and non-positive
geometries are accepted and scheduled normally; no error is ever raised. -/
def NoValidationSpec (T start_head : Int) (reqs : List Int)
    (dir : String) : Prop :=
  scan_schedule T start_head reqs dir = scan_schedule T start_head reqs "left" ∧
  c_scan_schedule T start_head reqs dir =
    c_scan_schedule T start_head reqs "left" ∧
  (fcfs_schedule 50 [500, -3]).sequence = [500, -3] ∧
  (scan_schedule 1 5 [7] "right").map (fun r => r.sequence) = some [7]

/-- C6: FCFS services the requests strictly in input order; each step moves
the head by `abs (currentHead - request)` and leaves it on the request,
which is exactly a re-walk of the request list from the start head. -/
theorem c6_fcfs_order (start_head : Int) (request_queue : List Int) :
    (fcfs_schedule start_head request_queue).sequence = request_queue ∧
    (fcfs_schedule start_head request_queue).movements =
      walkMoves start_head request_queue ∧
    (fcfs_schedule start_head request_queue).total_movement =
      (walkMoves start_head request_queue).sum ∧
    (fcfs_schedule start_head request_queue).final_position =
      lastPos start_head request_queue := by
  obtain ⟨h1, h2, h3, h4, h5, h6⟩ := fcfs_run start_head request_queue
  simp only [fcfs_schedule, mkResult]
  exact ⟨h1, h3, h4, h5⟩

/-- C8: on an empty request queue every algorithm returns the empty
sequence, zero total movement, average seek `0` (the guarded division is
never taken) and leaves the head at the start position. -/
theorem c8_empty_requests (T start_head : Int) (dir : String) :
    fcfs_schedule start_head [] =
      ⟨0, 0, [], [], [], 0, start_head⟩ ∧
    sstf_schedule start_head [] =
      some ⟨0, 0, [], [], [], 0, start_head⟩ ∧
    scan_schedule T start_head [] dir =
      some ⟨0, 0, [], [], [], 0, start_head⟩ ∧
    c_scan_schedule T start_head [] dir =
      some ⟨0, 0, [], [], [], 0, start_head⟩ :=
  ⟨rfl, rfl, rfl, rfl⟩

/-- C3: the C-SCAN run on the repository's example input: ascending visits
82,140,170,190, boundary visit 199, wrap jump to 0 costing 199 (total 391 =
192 + 199), ascending visits 16,24,43 from 0, final head 43. -/
theorem c3_cscan_example :
    (c_scan_schedule 200 50 [82, 170, 43, 140, 24, 16, 190] "right").map
      (fun r => (r.sequence, r.serviced, r.movements, r.total_movement,
        r.wraps, r.final_position)) =
    some ([82, 140, 170, 190, 199, 16, 24, 43],
      [82, 140, 170, 190, 16, 24, 43],
      [32, 58, 30, 20, 9, 16, 8, 19], 391, 1, 43) ∧
    (391 : Int) = [(32 : Int), 58, 30, 20, 9, 16, 8, 19].sum + 199 :=
  ⟨by decide, by decide⟩

/-- C4: the SCAN run on the repository's example input: ascending visits
82,140,170,190, synthetic boundary step to 199, then descending visits
43,24,16, final head 16. -/
theorem c4_scan_example :
    (scan_schedule 200 50 [82, 170, 43, 140, 24, 16, 190] "right").map
      (fun r => (r.sequence, r.serviced, r.movements, r.total_movement,
        r.final_position)) =
    some ([82, 140, 170, 190, 199, 43, 24, 16],
      [82, 140, 170, 190, 43, 24, 16],
      [32, 58, 30, 20, 9, 156, 19, 8], 332, 16) := by
  decide

/-- C10: the demo's `c_scan_schedule` with any direction token other than
`"right"` returns total movement 0 and an empty sequence, servicing
nothing. -/
theorem c10_demo_cscan_other_direction (T h : Int) (reqs : List Int)
    (dir : String) (hd : dir ≠ "right") :
    demo_c_scan_schedule T h reqs dir = (0, []) := by
  simp only [demo_c_scan_schedule, if_neg hd]

/-- Witness for C10 at `direction = "left"` on a non-empty queue. -/
theorem c10_demo_cscan_other_direction_witness :
    (("left" : String) ≠ "right") ∧
      demo_c_scan_schedule 200 50 [51, 49, 52, 48, 50, 195, 5] "left" =
        (0, []) :=
  ⟨by decide,
    c10_demo_cscan_other_direction 200 50 [51, 49, 52, 48, 50, 195, 5] "left"
      (by decide)⟩

/-- C5: at every SSTF step the chosen element is the earliest distance
minimizer of the remaining working copy and exactly one occurrence of it
is removed. -/
theorem c5_sstf_step (head : Int) (reqs : List Int) (hne : reqs ≠ []) :
    SstfStepSpec head reqs := by
  obtain ⟨x, xs, rfl⟩ := List.exists_cons_of_ne_nil hne
  obtain ⟨c, hc⟩ := pyArgmin_cons_isSome head x xs
  obtain ⟨hmem, hmin, hfind⟩ := pyArgmin_spec hc
  refine ⟨c, hc, hmem, hmin, hfind, ?_, ?_, ?_, ?_⟩
  · rw [List.length_erase_of_mem hmem]
    simp only [List.length_cons]
    omega
  · rw [List.count_erase_self]
    have h1 : 0 < List.count c (x :: xs) := List.count_pos_iff.mpr hmem
    omega
  · intro z hz
    exact List.count_erase_of_ne hz _
  · intro fuel
    simp only [sstfGo, hc]

/-- Witness for C5 on a queue with a distance tie (4 and 16 are both at
distance 6 from head 10; the earlier 4 must win). -/
theorem c5_sstf_step_witness :
    (([4, 16, 7, 4] : List Int) ≠ []) ∧ SstfStepSpec 10 [4, 16, 7, 4] :=
  ⟨by decide, c5_sstf_step 10 [4, 16, 7, 4] (by decide)⟩

/-- C1 (amended): movement accounting on valid inputs, for every direction
token.  FCFS, SSTF and SCAN satisfy `totalMovement = sum movements` with
`movements` reproducible by re-walking `sequence`; C-SCAN totals exceed the
sum of `movements` by `totalCylinders - 1` per wrap jump. -/
theorem c1_total_movement_accounting (T start_head : Int) (reqs : List Int)
    (dir : String) (hv : ∀ x ∈ reqs, 0 ≤ x ∧ x ≤ T - 1) :
    SumSpec T start_head reqs dir := by
  refine ⟨?_, ?_, ?_, ?_⟩
  · obtain ⟨h1, h2, h3, h4, h5, h6⟩ := fcfs_run start_head reqs
    simp only [fcfs_schedule, mkResult]
    rw [h1, h3, h4]
    exact ⟨rfl, rfl⟩
  · obtain ⟨acc, hrun, hperm, hserv, hmovs, htot, hfin, hwr⟩ :=
      sstf_run reqs.length reqs start_head (le_refl _)
    refine ⟨mkResult reqs acc, ?_, ?_, ?_⟩
    · simp only [sstf_schedule, hrun, Option.map_some']
    · simp only [mkResult]
      rw [htot]
    · simp only [mkResult]
      rw [hmovs]
  · have hex : ∃ acc, scanGo (2 * reqs.length + 2) T dir start_head reqs =
        some acc := by
      by_cases hd : dir = "right"
      · subst hd
        obtain ⟨acc, A, D, hrun, hrest⟩ :=
          scan_right_phase (2 * reqs.length + 2) T start_head reqs
            (by omega) (fun x hx => (hv x hx).2)
        exact ⟨acc, hrun⟩
      · exact scan_other_phase (2 * reqs.length + 2) T dir start_head reqs hd
          (by omega) (fun x hx => (hv x hx).1)
    obtain ⟨acc, hrun⟩ := hex
    obtain ⟨hmovs, htot, hfin, hperm, hwr⟩ :=
      scan_run_props _ _ _ _ _ _ hrun
    refine ⟨mkResult reqs acc, ?_, ?_, ?_⟩
    · simp only [scan_schedule, hrun, Option.map_some']
    · simp only [mkResult]
      rw [htot]
    · simp only [mkResult]
      rw [hmovs]
  · have hex : ∃ acc, cScanGo (2 * reqs.length + 2) T dir start_head reqs =
        some acc := by
      by_cases hd : dir = "right"
      · subst hd
        exact cscan_right_phase (2 * reqs.length + 2) T start_head reqs
          (by omega) (fun x hx => (hv x hx).1)
      · exact cscan_other_phase (2 * reqs.length + 2) T dir start_head reqs hd
          (by omega) (fun x hx => (hv x hx).2)
    obtain ⟨acc, hrun⟩ := hex
    obtain ⟨htot, hperm⟩ := cscan_run_props _ _ _ _ _ _ hrun
    refine ⟨mkResult reqs acc, ?_, ?_⟩
    · simp only [c_scan_schedule, hrun, Option.map_some']
    · simp only [mkResult]
      rw [htot]

/-- Witness for C1 (amended) on the repository's example input. -/
theorem c1_total_movement_accounting_witness :
    (∀ x ∈ ([82, 170, 43, 140, 24, 16, 190] : List Int),
      0 ≤ x ∧ x ≤ 200 - 1) ∧
    SumSpec 200 50 [82, 170, 43, 140, 24, 16, 190] "right" :=
  ⟨by decide,
    c1_total_movement_accounting 200 50 [82, 170, 43, 140, 24, 16, 190]
      "right" (by decide)⟩

/-- C1 counterexample: on the example input, C-SCAN's `totalMovement` is
391 but its `movements` sum to 192 — the wrap jump's 199 has no
`movements` entry, so the sum is not reproducible from the result. -/
theorem c1_cscan_wrap_counterexample :
    (c_scan_schedule 200 50 [82, 170, 43, 140, 24, 16, 190] "right").map
      (fun r => (r.total_movement, r.movements.sum)) = some (391, 192) ∧
    (391 : Int) ≠ 192 :=
  ⟨by decide, by decide⟩

/-- C7: on valid inputs each algorithm terminates and its serviced
sequence (boundary/wrap visits excluded) is a permutation with
multiplicity of the original request queue. -/
theorem c7_serviced_permutation (T start_head : Int) (reqs : List Int)
    (dir : String) (hv : ∀ x ∈ reqs, 0 ≤ x ∧ x ≤ T - 1) :
    PermSpec T start_head reqs dir := by
  refine ⟨?_, ?_, ?_, ?_⟩
  · obtain ⟨h1, h2, h3, h4, h5, h6⟩ := fcfs_run start_head reqs
    simp only [fcfs_schedule, mkResult]
    rw [h2]
  · obtain ⟨acc, hrun, hperm, hserv, hmovs, htot, hfin, hwr⟩ :=
      sstf_run reqs.length reqs start_head (le_refl _)
    refine ⟨mkResult reqs acc, ?_, ?_⟩
    · simp only [sstf_schedule, hrun, Option.map_some']
    · simp only [mkResult]
      rw [hserv]
      exact hperm
  · have hex : ∃ acc, scanGo (2 * reqs.length + 2) T dir start_head reqs =
        some acc := by
      by_cases hd : dir = "right"
      · subst hd
        obtain ⟨acc, A, D, hrun, hrest⟩ :=
          scan_right_phase (2 * reqs.length + 2) T start_head reqs
            (by omega) (fun x hx => (hv x hx).2)
        exact ⟨acc, hrun⟩
      · exact scan_other_phase (2 * reqs.length + 2) T dir start_head reqs hd
          (by omega) (fun x hx => (hv x hx).1)
    obtain ⟨acc, hrun⟩ := hex
    obtain ⟨hmovs, htot, hfin, hperm, hwr⟩ :=
      scan_run_props _ _ _ _ _ _ hrun
    refine ⟨mkResult reqs acc, ?_, ?_⟩
    · simp only [scan_schedule, hrun, Option.map_some']
    · simp only [mkResult]
      exact hperm
  · have hex : ∃ acc, cScanGo (2 * reqs.length + 2) T dir start_head reqs =
        some acc := by
      by_cases hd : dir = "right"
      · subst hd
        exact cscan_right_phase (2 * reqs.length + 2) T start_head reqs
          (by omega) (fun x hx => (hv x hx).1)
      · exact cscan_other_phase (2 * reqs.length + 2) T dir start_head reqs hd
          (by omega) (fun x hx => (hv x hx).2)
    obtain ⟨acc, hrun⟩ := hex
    obtain ⟨htot, hperm⟩ := cscan_run_props _ _ _ _ _ _ hrun
    refine ⟨mkResult reqs acc, ?_, ?_⟩
    · simp only [c_scan_schedule, hrun, Option.map_some']
    · simp only [mkResult]
      exact hperm

/-- Witness for C7 on the repository's example input. -/
theorem c7_serviced_permutation_witness :
    (∀ x ∈ ([82, 170, 43, 140, 24, 16, 190] : List Int),
      0 ≤ x ∧ x ≤ 200 - 1) ∧
    PermSpec 200 50 [82, 170, 43, 140, 24, 16, 190] "right" :=
  ⟨by decide,
    c7_serviced_permutation 200 50 [82, 170, 43, 140, 24, 16, 190] "right"
      (by decide)⟩

/-- C2 (amended): no validation is performed; unknown direction tokens act
as `"left"` and out-of-range values are scheduled normally. -/
theorem c2_no_validation (T start_head : Int) (reqs : List Int)
    (dir : String) (hd : dir ≠ "right") :
    NoValidationSpec T start_head reqs dir := by
  refine ⟨?_, ?_, by decide, by decide⟩
  · simp only [scan_schedule, scanGo_dir_of_ne _ _ _ _ hd]
  · simp only [c_scan_schedule, cScanGo_dir_of_ne _ _ _ _ hd]

/-- Witness for C2 (amended) at the unknown token `"up"`. -/
theorem c2_no_validation_witness :
    (("up" : String) ≠ "right") ∧ NoValidationSpec 200 50 [82] "up" :=
  ⟨by decide, c2_no_validation 200 50 [82] "up" (by decide)⟩

/-- C2 counterexample: a `scan_schedule` call with the unrecognized
direction token `"up"` does not fail — it returns a complete result
(servicing the queue as if the direction were toward-low), so no
`ConfigurationError` is ever raised. -/
theorem c2_unknown_direction_counterexample :
    (scan_schedule 200 50 [82] "up").map
      (fun r => (r.sequence, r.total_movement, r.final_position)) =
      some ([0, 82], 132, 82) := by
  decide

/-- C9 (amended): on valid inputs with direction `"right"`, the two SCAN
implementations service the non-synthetic requests in the same order, but
their totals agree only when no request lies below the start head:
`disksimulation` sweeps on to the boundary `totalCylinders - 1` before
descending, so its total exceeds the demo's by `2 * (totalCylinders - 1 -
p)`, where `p` is the head position after the ascending phase. -/
def ScanDemoSpec (T h : Int) (reqs : List Int) : Prop :=
  ∃ r, scan_schedule T h reqs "right" = some r ∧
    r.serviced = (demo_scan_schedule T h reqs "right").2 ∧
    r.total_movement = (demo_scan_schedule T h reqs "right").1 +
      (if reqs.filter (fun x => x < h) = [] then 0
        else 2 * (T - 1 - lastPos h ((sortAsc reqs).filter (fun x => h ≤ x))))

/-- C9 (amended), proved: same service order; totals differ by exactly the
boundary detour whenever some request lies below the start head. -/
theorem c9_scan_refinement (T h : Int) (reqs : List Int)
    (hh : 0 ≤ h ∧ h ≤ T - 1) (hv : ∀ x ∈ reqs, 0 ≤ x ∧ x ≤ T - 1) :
    ScanDemoSpec T h reqs := by
  obtain ⟨acc, A, D, hrun, hserv, hseq, hAperm, hAsort, hAbd, hDperm,
    hDsort⟩ := scan_right_phase (2 * reqs.length + 2) T h reqs (by omega)
      (fun x hx => (hv x hx).2)
  obtain ⟨hmovs, htot, hfin, hperm, hwr⟩ := scan_run_props _ _ _ _ _ _ hrun
  have hsortperm : (sortAsc reqs).Perm reqs := List.perm_insertionSort _ reqs
  have hsorted : List.Sorted (fun a b => a ≤ b) (sortAsc reqs) :=
    List.sorted_insertionSort _ reqs
  have hA_eq : A = (sortAsc reqs).filter (fun r => decide (h ≤ r)) := by
    refine sorted_le_unique ?_ hAsort ?_
    · exact hAperm.trans ((hsortperm.filter _).symm)
    · exact List.Pairwise.filter _ hsorted
  have hD_rev : D.reverse = (sortAsc reqs).filter (fun r => decide (r < h)) := by
    refine sorted_le_unique ?_ ?_ ?_
    · exact (List.reverse_perm D).trans (hDperm.trans ((hsortperm.filter _).symm))
    · exact List.pairwise_reverse.mpr hDsort
    · exact List.Pairwise.filter _ hsorted
  have hD_eq : D = ((sortAsc reqs).filter (fun r => decide (r < h))).reverse := by
    rw [← hD_rev, List.reverse_reverse]
  have hdemo : demo_scan_schedule T h reqs "right" = walkAccum h (A ++ D) := by
    simp only [demo_scan_schedule, eq_self_iff_true, if_true]
    rw [← hA_eq, ← hD_eq]
  refine ⟨mkResult reqs acc, ?_, ?_, ?_⟩
  · simp only [scan_schedule, hrun, Option.map_some']
  · simp only [mkResult]
    rw [hdemo, walkAccum_snd, hserv]
  · simp only [mkResult]
    rw [hdemo, walkAccum_fst, ← hA_eq]
    cases hD0 : D with
    | nil =>
      have hfe : reqs.filter (fun x => decide (x < h)) = [] := by
        rw [hD0] at hDperm
        exact hDperm.symm.eq_nil
      rw [hD0] at hseq
      rw [if_pos hfe, htot, hmovs, hseq]
      simp only [if_true, eq_self_iff_true, List.append_nil, add_zero]
    | cons d D2 =>
      have hfne : reqs.filter (fun x => decide (x < h)) ≠ [] := by
        intro h0
        rw [h0] at hDperm
        rw [hD0] at hDperm
        exact List.cons_ne_nil d D2 hDperm.eq_nil
      have hd_filter : d ∈ reqs.filter (fun x => decide (x < h)) := by
        rw [hD0] at hDperm
        exact hDperm.mem_iff.mp (List.mem_cons_self d D2)
      have hd_mem : d ∈ reqs := (List.mem_filter.mp hd_filter).1
      have hd_lt : d < h := of_decide_eq_true (List.mem_filter.mp hd_filter).2
      have he : h ≤ lastPos h A ∧ lastPos h A ≤ T - 1 := by
        rcases lastPos_eq_or_mem h A with h1 | h1
        · rw [h1]
          exact ⟨le_refl h, hh.2⟩
        · have h2 : lastPos h A ∈ reqs :=
            (List.mem_filter.mp (hAperm.mem_iff.mp h1)).1
          exact ⟨hAbd _ h1, (hv _ h2).2⟩
      have hd_bd := hv d hd_mem
      rw [hD0] at hseq
      rw [if_neg hfne, htot, hmovs, hseq]
      rw [walkMoves_append, walkMoves_append, List.sum_append,
        List.sum_append]
      have hne2 : (d :: D2) ≠ ([] : List Int) := List.cons_ne_nil d D2
      rw [if_neg hne2]
      simp only [walkMoves, List.sum_cons]
      have ha1 : |lastPos h A - (T - 1)| = T - 1 - lastPos h A := by
        rw [abs_of_nonpos (by omega)]
        ring
      have ha2 : |T - 1 - d| = T - 1 - d := abs_of_nonneg (by omega)
      have ha3 : |lastPos h A - d| = lastPos h A - d := abs_of_nonneg (by omega)
      rw [ha1, ha2, ha3]
      ring

/-- Witness for C9 (amended) on the repository's example input: both
implementations service 82,140,170,190,43,24,16 in that order, the demo
total is 314, and the engine total is 314 + 2 * (199 - 190) = 332. -/
theorem c9_scan_refinement_witness :
    ((0 : Int) ≤ 50 ∧ (50 : Int) ≤ 200 - 1) ∧
    (∀ x ∈ ([82, 170, 43, 140, 24, 16, 190] : List Int),
      0 ≤ x ∧ x ≤ 200 - 1) ∧
    ScanDemoSpec 200 50 [82, 170, 43, 140, 24, 16, 190] :=
  ⟨by decide, by decide,
    c9_scan_refinement 200 50 [82, 170, 43, 140, 24, 16, 190]
      (by decide) (by decide)⟩

/-- C9 counterexample: on the example input the two SCAN implementations
disagree on total head movement (332 for `disksimulation.py`, 314 for
`workload_starvation_demo.py`), refuting the claimed equality. -/
theorem c9_total_mismatch_counterexample :
    (scan_schedule 200 50 [82, 170, 43, 140, 24, 16, 190] "right").map
      (fun r => r.total_movement) = some 332 ∧
    (demo_scan_schedule 200 50 [82, 170, 43, 140, 24, 16, 190] "right").1 =
      314 ∧
    (332 : Int) ≠ 314 :=
  ⟨by decide, by decide, by decide⟩

example : (sstf_schedule 50 [82, 170, 43, 140, 24, 16, 190]).map
    (fun r => (r.total_movement, r.sequence, r.final_position)) =
    some (208, [43, 24, 16, 82, 140, 170, 190], 190) := by decide

example : (scan_schedule 200 50 [82, 170, 43, 140, 24, 16, 190] "right").map
    (fun r => (r.total_movement, r.sequence, r.movements, r.serviced,
      r.final_position)) =
    some (332, [82, 140, 170, 190, 199, 43, 24, 16],
      [32, 58, 30, 20, 9, 156, 19, 8], [82, 140, 170, 190, 43, 24, 16], 16) := by
  decide

example : (c_scan_schedule 200 50 [82, 170, 43, 140, 24, 16, 190] "right").map
    (fun r => (r.total_movement, r.sequence, r.movements, r.serviced, r.wraps,
      r.final_position)) =
    some (391, [82, 140, 170, 190, 199, 16, 24, 43],
      [32, 58, 30, 20, 9, 16, 8, 19], [82, 140, 170, 190, 16, 24, 43], 1, 43) := by
  decide

example : demo_scan_schedule 200 50 [82, 170, 43, 140, 24, 16, 190] "right" =
    (314, [82, 140, 170, 190, 43, 24, 16]) := by decide

example : demo_c_scan_schedule 200 50 [82, 170, 43, 140, 24, 16, 190] "right" =
    (192, [82, 140, 170, 190, 16, 24, 43]) := by decide

example : demo_c_scan_schedule 200 50 [82, 170, 43, 140, 24, 16, 190] "left" =
    (0, []) := by decide
